import Mathlib

/-!
Verification of the snapx native bootstrapper (src/Snap.CoreRun).

Shallow embedding of the two source files, pal/pal.cpp and coreclr.cpp.
Strings are modelled as lists of characters; C BOOL out-parameter style
is modelled with Option results; the external environment (filesystem,
environment variables, dynamic-library loader, hosting interface) is
modelled as explicit state records passed to the embedded functions.
-/

/-- C strings are modelled as lists of characters (no interior NUL). -/
abbrev Str := List Char

/-- Convert a Lean string literal to the embedded string type. -/
def chars (s : String) : Str := s.data

/- ------------------------------------------------------------------
  pal.cpp, string helpers
------------------------------------------------------------------- -/

/-- Embedding of pal_str_iequals (pal.cpp:855-866): case-insensitive
equality test; two strings are equal when they have the same length and
corresponding characters are equal or have equal uppercase images.
Returns TRUE on equality, FALSE otherwise. -/
def pal_str_iequals (lhs rhs : Str) : Bool :=
  decide (lhs.length = rhs.length) &&
    (List.zip lhs rhs).all (fun p => decide (p.1 = p.2) || decide (p.1.toUpper = p.2.toUpper))

/-- Embedding of pal_str_endswith (pal.cpp:830-839): computes
diff = strlen(src) - strlen(str) in size_t arithmetic and returns TRUE
iff diff > 0 and the characters of src from position diff on compare
equal to str.  When str is longer than src the C subtraction wraps to a
huge value and the subsequent read is out of the bounds of src; within
the embedding no in-bounds suffix of src can then equal str, so we use
truncated natural subtraction, under which both readings yield FALSE. -/
def pal_str_endswith (src s : Str) : Bool :=
  let diff := src.length - s.length
  decide (0 < diff) && decide (src.drop diff = s)

/-- Embedding of pal_str_startswith (pal.cpp:841-853); unused by the
claims but kept for completeness of the string helpers: note that the
source passes src_len (not suffix_len) to strncmp, so it in fact tests
whole-string equality whenever src is at least as long as str. -/
def pal_str_startswith (src s : Str) : Bool :=
  if src.length < s.length then false
  else decide (src = s)

/- ------------------------------------------------------------------
  pal.cpp, environment
------------------------------------------------------------------- -/

/-- An environment is an association list from variable names to values;
lookup returns the first binding (getenv semantics, case-sensitive as on
the Linux branch of pal_env_get_variable). -/
def lookupEnv : List (Str × Str) → Str → Option Str
  | [], _ => none
  | (k, v) :: rest, n => if k = n then some v else lookupEnv rest n

/-- Embedding of pal_env_get_variable (pal.cpp:164-196): fails (FALSE)
when the variable is unset, otherwise yields its value. -/
def pal_env_get_variable (env : List (Str × Str)) (name : Str) : Option Str :=
  lookupEnv env name

/-- Embedding of pal_env_get_variable_bool (pal.cpp:198-212).  The source
computes
  pal_str_iequals(value, "1") == 0 || pal_str_iequals(value, "true") == 0
and stores TRUE exactly when that disjunction holds; pal_str_iequals
returns TRUE (1) on a case-insensitive match, so the comparison with 0
is satisfied by every value that FAILS the respective match.  The
embedding reproduces that comparison literally. -/
def pal_env_get_variable_bool (env : List (Str × Str)) (name : Str) : Option Bool :=
  match pal_env_get_variable env name with
  | none => none
  | some v =>
      some ((pal_str_iequals v (chars "1") == false)
        || (pal_str_iequals v (chars "true") == false))

/-- Character class of the Windows variable-reference regex in
pal_env_expand_str (pal.cpp:224): digits, letters, backslash, forward
slash and parentheses. -/
def isEnvNameChar (c : Char) : Bool :=
  c.isDigit || c.isAlpha || decide (c = '\\') || decide (c = '/') ||
    decide (c = '(') || decide (c = ')')

/-- Leftmost match of the reference pattern used by pal_env_expand_str:
a percent sign, a (possibly empty) run of class characters, and a
closing percent sign.  Returns the match position together with the
variable name between the percent signs.  Because the class excludes
the percent sign itself, the greedy star admits exactly one candidate
end per start position, as in the source regex. -/
def findEnvRef : Str → Option (Nat × Str)
  | [] => none
  | c :: rest =>
    if c = '%' then
      let run := rest.takeWhile isEnvNameChar
      match rest.drop run.length with
      | '%' :: _ => some (0, run)
      | _ => (findEnvRef rest).map (fun p => (p.1 + 1, p.2))
    else (findEnvRef rest).map (fun p => (p.1 + 1, p.2))

/-- One state of the substitution loop of pal_env_expand_str
(pal.cpp:229-245): the current string and the replacement counter.
The loop body either terminates (no match), skips without changing any
state (match found but variable unset: the source does continue), or
substitutes the value and increments the counter.  The C loop is
unbounded; the embedding adds an explicit fuel argument and yields none
when the bound is exhausted, so a result of none for every fuel value
witnesses non-termination of the source loop. -/
def expandLoop (env : List (Str × Str)) :
    Nat → Str → Nat → Option (Nat × Str)
  | 0, _, _ => none
  | fuel + 1, s, count =>
    match findEnvRef s with
    | none => some (count, s)
    | some (i, name) =>
      match pal_env_get_variable env name with
      | none => expandLoop env fuel s count
      | some v =>
          expandLoop env fuel
            (s.take i ++ v ++ s.drop (i + name.length + 2)) (count + 1)

/-- Embedding of pal_env_expand_str (pal.cpp:214-255): runs the
substitution loop; on loop exit it fails (FALSE, inner none) when zero
replacements occurred and otherwise returns the expanded string.  The
outer none marks fuel exhaustion of the embedded loop. -/
def pal_env_expand_str (env : List (Str × Str)) (s : Str) (fuel : Nat) :
    Option (Option Str) :=
  (expandLoop env fuel s 0).map (fun p => if p.1 = 0 then none else some p.2)

/- ------------------------------------------------------------------
  pal.cpp, Linux file-listing suffix filter
------------------------------------------------------------------- -/

/-- Embedding of the file-name filter of the Linux branch of
pal_fs_list_impl for regular files (pal.cpp:604-624): when an extension
filter is supplied, a directory entry is kept exactly when
pal_str_endswith accepts it.  The argument is the list of regular-file
names the directory enumeration produces. -/
def pal_fs_list_files_names_linux (names : List Str) (ext : Option Str) : List Str :=
  names.filter (fun n =>
    match ext with
    | none => true
    | some e => pal_str_endswith n e)

/- ------------------------------------------------------------------
  coreclr.cpp, startup flags
------------------------------------------------------------------- -/

/-- Name of the server-GC environment toggle (coreclr.cpp:11). -/
def server_gc_environment_var : Str := chars "CORECLR_SERVER_GC"

/-- Name of the concurrent-GC environment toggle (coreclr.cpp:12). -/
def concurrent_gc_environment_var : Str := chars "CORECLR_CONCURRENT_GC"

/-- The STARTUP_FLAGS bits touched by create_clr_startup_flags, as a
record of distinct boolean bits. -/
structure StartupFlags where
  loader_optimization_single_domain : Bool
  single_appdomain : Bool
  concurrent_gc : Bool
  server_gc : Bool
deriving DecidableEq, Repr

/-- Fixed baseline of create_clr_startup_flags (coreclr.cpp:278-282):
STARTUP_LOADER_OPTIMIZATION_SINGLE_DOMAIN, STARTUP_SINGLE_APPDOMAIN and
STARTUP_CONCURRENT_GC set; STARTUP_SERVER_GC clear. -/
def baselineStartupFlags : StartupFlags :=
  { loader_optimization_single_domain := true
    single_appdomain := true
    concurrent_gc := true
    server_gc := false }

/-- Embedding of create_clr_startup_flags (coreclr.cpp:276-304): starting
from the baseline, for each of the two toggles the helper leaves the
flags unchanged when pal_env_get_variable_bool fails (variable unset),
sets the bit when it reports true, and clears the bit when it reports
false; the server-GC toggle is processed first, then concurrent GC. -/
def create_clr_startup_flags (env : List (Str × Str)) : StartupFlags :=
  let f0 := baselineStartupFlags
  let f1 :=
    match pal_env_get_variable_bool env server_gc_environment_var with
    | none => f0
    | some b => { f0 with server_gc := b }
  match pal_env_get_variable_bool env concurrent_gc_environment_var with
  | none => f1
  | some b => { f1 with concurrent_gc := b }

/- ------------------------------------------------------------------
  coreclr.cpp, bootstrap sequencer
------------------------------------------------------------------- -/

/-- FAILED macro on an HRESULT: the status is negative. -/
def hresultFailed (hr : Int) : Bool := decide (hr < 0)

/-- Conversion of the unsigned long exit code to the int return value of
snap::coreclr::run, two's-complement 32-bit. -/
def toInt32 (n : Nat) : Int :=
  if n % 2 ^ 32 < 2 ^ 31 then (n % 2 ^ 32 : Int) else (n % 2 ^ 32 : Int) - 2 ^ 32

/-- Outcomes of the external calls made by snap::coreclr::run, in call
order: each field records what the corresponding collaborator returns
for this process run. -/
structure RunWorld where
  executable_file_exists : Bool
  working_directory : Option Str
  core_clr_instance_found : Bool
  runtime_host_obtained : Bool
  set_startup_flags_hr : Int
  start_hr : Int
  trusted_platform_assemblies_value : Str
  create_appdomain_ok : Bool
  execute_assembly_hr : Int
  execute_assembly_exit_code : Nat
  unload_appdomain_hr : Int
  stop_hr : Int

/-- Embedding of snap::coreclr::run (coreclr.cpp:17-99).  Stage failures
return exactly what the source returns: the value -1 at the validate,
discover, host-acquisition, assembly-list and appdomain gates, and the
value of the C++ literal false converted to int, that is 0, at the
SetStartupFlags, Start, ExecuteAssembly, UnloadAppDomain and Stop gates;
on full success the ExecuteAssembly exit code is returned through the
unsigned-long-to-int conversion. -/
def snap_coreclr_run (w : RunWorld) : Int :=
  if !w.executable_file_exists then -1
  else
    match w.working_directory with
    | none => -1
    | some _ =>
      if !w.core_clr_instance_found then -1
      else if !w.runtime_host_obtained then -1
      else if hresultFailed w.set_startup_flags_hr then 0
      else if hresultFailed w.start_hr then 0
      else if w.trusted_platform_assemblies_value = [] then -1
      else if !w.create_appdomain_ok then -1
      else if hresultFailed w.execute_assembly_hr then 0
      else if hresultFailed w.unload_appdomain_hr then 0
      else if hresultFailed w.stop_hr then 0
      else toInt32 w.execute_assembly_exit_code

/- ------------------------------------------------------------------
  pal.cpp, path combination with normalization (Linux branch,
  pal.cpp:328-472)
------------------------------------------------------------------- -/

/-- Does pat occur as a leading segment of s (strncmp-style test used to
implement strstr)? -/
def startsWithL : Str → Str → Bool
  | [], _ => true
  | _ :: _, [] => false
  | a :: x, b :: y => decide (a = b) && startsWithL x y

/-- Index of the first occurrence of pat in s (strstr); none when pat
does not occur. -/
def strstrIdx (pat : Str) : Str → Option Nat
  | [] => if pat = [] then some 0 else none
  | c :: rest =>
    if startsWithL pat (c :: rest) then some 0
    else (strstrIdx pat rest).map (· + 1)

/-- The parent-reference pattern searched by the first loop of
path_combine_recursive. -/
def parentPat : Str := chars "/../"

/-- The current-directory pattern searched by the second loop of
path_combine_recursive. -/
def dotPat : Str := chars "/./"

/-- Index of the last slash of a string (strrchr), none when absent. -/
def lastSlashIdx : Str → Option Nat
  | [] => none
  | c :: rest =>
    match lastSlashIdx rest with
    | some i => some (i + 1)
    | none => if c = '/' then some 0 else none

/-- The parent-resolution loop of path_combine_recursive
(pal.cpp:392-408): while a parent reference occurs, cut the string at
it; fail (the source returns 1) when the left part holds no slash,
otherwise keep the left part up to and including its last slash and
append the remainder after the reference.  Every iteration shortens the
string by at least four characters, so the fuel value length+1 supplied
at the call site is never exhausted; exhaustion maps to the failure
result. -/
def resolveParentLoop : Nat → Str → Option Str
  | 0, _ => none
  | fuel + 1, s =>
    match strstrIdx parentPat s with
    | none => some s
    | some i =>
      let pre := s.take i
      let post := s.drop (i + 4)
      match lastSlashIdx pre with
      | none => none
      | some j => resolveParentLoop fuel (pre.take (j + 1) ++ post)

/-- The current-directory-resolution loop of path_combine_recursive
(pal.cpp:411-418): while the pattern slash-dot-slash occurs, drop the
dot and one slash.  Each iteration shortens the string by two
characters, so the fuel value length+1 supplied at the call site is
never exhausted; exhaustion returns the string reached so far. -/
def resolveDotLoop : Nat → Str → Str
  | 0, s => s
  | fuel + 1, s =>
    match strstrIdx dotPat s with
    | none => s
    | some i => resolveDotLoop fuel (s.take (i + 1) ++ s.drop (i + 3))

/-- Embedding of path_combine_recursive (pal.cpp:382-434): run the two
resolution loops, then strip a trailing slash, or a trailing slash-dot,
or on a trailing slash-dot-dot append a slash and recurse.  The two
trailing comparisons read the last two respectively three characters;
for shorter strings the source reads before the buffer (undefined
behaviour), modelled here as the comparison failing.  Each recursive
step shortens the string by at least three characters, so the fuel
value length+1 supplied at the call site is never exhausted. -/
def pathCombineRecursive : Nat → Str → Option Str
  | 0, _ => none
  | fuel + 1, s =>
    if s.length = 0 then some s
    else
      match resolveParentLoop (s.length + 1) s with
      | none => none
      | some s1 =>
        let s2 := resolveDotLoop (s1.length + 1) s1
        if s2.getLast? = some '/' then some s2.dropLast
        else if s2.drop (s2.length - 2) = chars "/." then some (s2.take (s2.length - 2))
        else if s2.drop (s2.length - 3) = chars "/.." then
          pathCombineRecursive fuel (s2 ++ ['/'])
        else some s2

/-- Embedding of pal_fs_path_combine, Linux branch (pal.cpp:328-472):
when path2 is absolute it replaces path1 entirely; otherwise the two
are joined with exactly one slash; the joined buffer is then normalized
by path_combine_recursive, failure yielding no output.  An empty path1
is modelled as taking the join branch (the source would read one
character before the buffer there). -/
def pal_fs_path_combine (path1 path2 : Str) : Option Str :=
  if path2.head? = some '/' then pathCombineRecursive (path2.length + 1) path2
  else
    let buffer :=
      if path1.getLast? = some '/' then path1 ++ path2
      else path1 ++ '/' :: path2
    pathCombineRecursive (buffer.length + 1) buffer

/- ------------------------------------------------------------------
  pal.cpp, directory-name helpers
------------------------------------------------------------------- -/

/-- Embedding of pal_fs_get_directory_name (pal.cpp:306-326): despite
its name it extracts the part of the path after the LAST separator (the
last path component), failing when no separator is present.  The
platform separator is modelled as the forward slash. -/
def pal_fs_get_directory_name (p : Str) : Option Str :=
  match lastSlashIdx p with
  | none => none
  | some i => some (p.drop (i + 1))

/-- Modelled from the spec: getParentDirectory (spec section 4.1), the
substring before the last separator, failing when no separator is
present.  The wide-string helper pal_fs_get_directory_name_full_path
called by coreclr.cpp and the OS facilities behind
pal_fs_get_directory_name_absolute_path are not part of the two source
files under src. -/
def pal_fs_get_directory_name_full_path (p : Str) : Option Str :=
  match lastSlashIdx p with
  | none => none
  | some i => some (p.take i)

/- ------------------------------------------------------------------
  Semantic versions (vendor/semver200, modelled from the spec)
------------------------------------------------------------------- -/

/-- Modelled from the spec: RuntimeVersion (spec section 3), a semantic
version major.minor.patch with an optional prerelease tag; the vendored
parser (vendor/semver200.h) is not under src. -/
structure Semver where
  major : Nat
  minor : Nat
  patch : Nat
  prerelease : Option Str
deriving DecidableEq, Repr

/-- Lexical (character-wise) order on strings, used for prerelease
comparison per the spec. -/
def lexLt : Str → Str → Bool
  | [], [] => false
  | [], _ :: _ => true
  | _ :: _, [] => false
  | a :: x, b :: y => if a = b then lexLt x y else decide (a < b)

/-- Modelled from the spec: comparison of RuntimeVersion is the total
order by (major, minor, patch, prerelease-presence-and-lexical-order);
a version with a prerelease tag precedes the same numeric version
without one. -/
def semverLt (a b : Semver) : Bool :=
  if a.major ≠ b.major then decide (a.major < b.major)
  else if a.minor ≠ b.minor then decide (a.minor < b.minor)
  else if a.patch ≠ b.patch then decide (a.patch < b.patch)
  else
    match a.prerelease, b.prerelease with
    | none, none => false
    | some _, none => true
    | none, some _ => false
    | some x, some y => lexLt x y

/-- The default-constructed version used for the self-contained load
attempt (coreclr.cpp:139). -/
def semverZero : Semver := ⟨0, 0, 0, none⟩

/-- Split a string at every occurrence of a character. -/
def splitOnChar (c : Char) : Str → List Str
  | [] => [[]]
  | a :: rest =>
    let r := splitOnChar c rest
    if a = c then [] :: r
    else
      match r with
      | h :: t => (a :: h) :: t
      | [] => [[a]]

/-- Parse a nonempty all-digit string as a natural number. -/
def parseNat? (s : Str) : Option Nat :=
  if s = [] then none
  else if s.all Char.isDigit then
    some (s.foldl (fun acc c => acc * 10 + (c.toNat - '0'.toNat)) 0)
  else none

/-- Modelled from the spec: parsing a directory name as a RuntimeVersion
(spec section 3): the version core is major.minor.patch, three nonempty
numeric components, optionally followed by a dash and a nonempty
prerelease tag; anything else fails to parse (the vendored parser
raises Parse_error, which the caller catches). -/
def parseSemver (s : Str) : Option Semver :=
  let core := s.takeWhile (fun c => decide (c ≠ '-'))
  let rest := s.drop core.length
  let pre? : Option (Option Str) :=
    match rest with
    | [] => some none
    | _ :: t => if t = [] then none else some (some t)
  match pre? with
  | none => none
  | some p =>
    match splitOnChar '.' core with
    | [ma, mi, pa] =>
      match parseNat? ma, parseNat? mi, parseNat? pa with
      | some a, some b, some c => some ⟨a, b, c, p⟩
      | _, _, _ => none
    | _ => none

/- ------------------------------------------------------------------
  coreclr.cpp, locator and loader state
------------------------------------------------------------------- -/

/-- The runtime library file name (coreclr.cpp:14). -/
def core_clr_dll : Str := chars "coreclr.dll"

/-- The well-known installed-runtimes root template (coreclr.cpp:15). -/
def core_clr_program_files_directory_path : Str :=
  chars "%programfiles%\\dotnet\\shared\\microsoft.netcore.app"

/-- Embedding of snap::core_clr_directory: root path, library path and
parsed version of one runtime candidate directory. -/
structure CoreClrDirectory where
  root_path : Str
  dll_path : Str
  version : Semver
deriving DecidableEq, Repr

/-- Embedding of snap::core_clr_instance as far as the claims need it:
the directory data of a successfully loaded (and pinned) runtime
library. -/
structure CoreClrInstance where
  root_path : Str
  dll_path : Str
  version : Semver
deriving DecidableEq, Repr

/-- The external state the coreclr.cpp functions consult: the directory
tree (immediate-subdirectory names per directory path), the set of
existing file paths, the sets of library paths for which LoadLibraryEx
respectively the module pin succeed, and the process environment. -/
structure World where
  subdirectories : List (Str × List Str)
  files : List Str
  loadable : List Str
  pinnable : List Str
  env : List (Str × Str)

/-- Association-list lookup for the directory tree. -/
def lookupDir : List (Str × List Str) → Str → Option (List Str)
  | [], _ => none
  | (k, v) :: rest, n => if k = n then some v else lookupDir rest n

/-- The dot-entry exclusion test of pal_fs_list_impl (pal.cpp:541-545):
an entry is kept when it is case-insensitively neither dot nor
dot-dot. -/
def notDotEntry (n : Str) : Bool :=
  !(pal_str_iequals n (chars ".")) && !(pal_str_iequals n (chars ".."))

/-- Embedding of pal_fs_file_exists (pal.cpp:474-489) over the world
state. -/
def pal_fs_file_exists (w : World) (p : Str) : Bool := decide (p ∈ w.files)

/-- Embedding of pal_fs_list_directories (pal.cpp:690-694 over
pal_fs_list_impl, type 0): fails when the directory cannot be
enumerated; otherwise yields, in enumeration order, the entries other
than dot and dot-dot, each joined to the root by pal_fs_path_combine,
entries whose join fails being skipped. -/
def pal_fs_list_directories (w : World) (path : Str) : Option (List Str) :=
  match lookupDir w.subdirectories path with
  | none => none
  | some names =>
    some ((names.filter notDotEntry).foldr
      (fun n acc =>
        match pal_fs_path_combine path n with
        | none => acc
        | some p => p :: acc) [])

/-- The per-subdirectory body of the scan loop of
get_core_directories_from_path (coreclr.cpp:186-227): extract the last
path component, parse it as a version (a parse failure is logged and
skipped), skip versions below the minimum, join the candidate path with
the library file name (skipping on join failure), and keep the
candidate only when the library file exists. -/
def scan_core_clr_path (w : World) (minV : Semver) (p : Str) :
    Option CoreClrDirectory :=
  match pal_fs_get_directory_name p with
  | none => none
  | some name =>
    match parseSemver name with
    | none => none
    | some v =>
      if semverLt v minV then none
      else
        match pal_fs_path_combine p core_clr_dll with
        | none => none
        | some dll =>
          if pal_fs_file_exists w dll then some ⟨p, dll, v⟩ else none

/-- The order imposed by the std::sort call of
get_core_directories_from_path (coreclr.cpp:229-231), whose strict
comparator is version-less-than: a candidate precedes another when the
latter's version is not below its own. -/
def coreDirLe (a b : CoreClrDirectory) : Prop :=
  semverLt b.version a.version = false

instance : DecidableRel coreDirLe := fun a b => by
  unfold coreDirLe; infer_instance

/-- Embedding of get_core_directories_from_path (coreclr.cpp:170-234):
enumerate the immediate subdirectories of the root (an enumeration
failure yields the empty list), scan each candidate, and sort the
survivors ascending by version.  The unstable std::sort of the source
is refined by insertion sort over the comparator-induced order. -/
def get_core_directories_from_path (w : World) (root : Str) (minV : Semver) :
    List CoreClrDirectory :=
  match pal_fs_list_directories w root with
  | none => []
  | some paths =>
    List.insertionSort coreDirLe (paths.filterMap (scan_core_clr_path w minV))

/-- Embedding of the directory overload of try_load_core_clr
(coreclr.cpp:236-274): join the directory with the library file name,
require the file to exist, load it with LoadLibraryEx and pin it with
GetModuleHandleExW, any failure yielding no instance; the version
argument is only recorded in the instance, never compared. -/
def try_load_core_clr_directory (w : World) (dir : Str) (v : Semver) :
    Option CoreClrInstance :=
  match pal_fs_path_combine dir core_clr_dll with
  | none => none
  | some dll =>
    if !(pal_fs_file_exists w dll) then none
    else if dll ∈ w.loadable then
      if dll ∈ w.pinnable then some ⟨dir, dll, v⟩ else none
    else none

/-- Embedding of the executable overload of try_load_core_clr
(coreclr.cpp:128-168): first try the executable's own directory with a
default-constructed version; only when that yields no instance, expand
the well-known installed-runtimes template (a failed or empty expansion
leaves the instance null), collect and sort the candidates at or above
the minimum version, and try them in order, stopping at the first
successful load.  The fuel argument bounds the embedded
environment-expansion loop. -/
def try_load_core_clr (w : World) (executable_path : Str) (minV : Semver)
    (fuel : Nat) : Option CoreClrInstance :=
  match pal_fs_get_directory_name_full_path executable_path with
  | none => none
  | some exeDir =>
    match try_load_core_clr_directory w exeDir semverZero with
    | some inst => some inst
    | none =>
      match pal_env_expand_str w.env core_clr_program_files_directory_path fuel with
      | some (some root) =>
        (get_core_directories_from_path w root minV).findSome?
          (fun d => try_load_core_clr_directory w d.root_path d.version)
      | _ => none

/- ------------------------------------------------------------------
  coreclr.cpp, trusted platform assemblies
------------------------------------------------------------------- -/

/-- Modelled from the spec: the file-name match of the listing used by
the assembly scan (spec section 4.1, suffix match against the extension
filter).  The patterns of coreclr.cpp all have the shape star followed
by an extension; the globbing itself is performed by FindFirstFile,
an OS facility outside the source files. -/
def globMatch (pattern name : Str) : Bool :=
  match pattern with
  | '*' :: suf => suf.isSuffixOf name
  | p => pal_str_iequals p name

/-- Embedding of pal_fs_list_files as used on the Windows path of the
assembly scan (pal.cpp:502-569): of the directory's regular-file names
(in enumeration order), keep those matching the pattern, skip dot and
dot-dot, and join each survivor to the directory with
pal_fs_path_combine, skipping entries whose join fails. -/
def pal_fs_list_files_glob (dir : Str) (names : List Str) (pattern : Str) :
    List Str :=
  ((names.filter (globMatch pattern)).filter notDotEntry).foldr
    (fun n acc =>
      match pal_fs_path_combine dir n with
      | none => acc
      | some p => p :: acc) []

/-- The fixed extension priority order of the assembly scan
(coreclr.cpp:394-401): optimized images before their plain
counterparts, libraries before executables before metadata files. -/
def trusted_platform_assemblies_extension_list : List Str :=
  [chars "*.ni.dll", chars "*.dll", chars "*.ni.exe", chars "*.exe",
   chars "*.ni.winmd", chars "*.winmd"]

/-- The accumulation step of the assembly scan (coreclr.cpp:416-427):
append a path unless it was previously accumulated. -/
def addIfNew (acc : List Str) (p : Str) : List Str :=
  if p ∈ acc then acc else acc ++ [p]

/-- Embedding of get_trusted_platform_assemblies (coreclr.cpp:387-431):
scan the runtime directory once per extension in priority order,
accumulating each listed path that is not already accumulated.  The
names argument is the directory's file-name enumeration. -/
def get_trusted_platform_assemblies (names : List Str) (dir : Str) : List Str :=
  trusted_platform_assemblies_extension_list.foldl
    (fun acc ext => (pal_fs_list_files_glob dir names ext).foldl addIfNew acc) []

/-- The assembly list built by build_trusted_platform_assemblies_str
before serialization (coreclr.cpp:441-455): the scanned list, with the
target executable path appended when not already present. -/
def build_trusted_platform_assemblies_list (names : List Str) (dir : Str)
    (executable_path : Str) : List Str :=
  let tpa := get_trusted_platform_assemblies names dir
  if executable_path ∈ tpa then tpa else tpa ++ [executable_path]

/-- Semicolon join with no trailing separator (coreclr.cpp:457-465). -/
def joinSemicolon : List Str → Str
  | [] => []
  | [x] => x
  | x :: rest => x ++ ';' :: joinSemicolon rest

/-- Embedding of build_trusted_platform_assemblies_str
(coreclr.cpp:433-468): serialize the assembly list with semicolon
separators. -/
def build_trusted_platform_assemblies_str (names : List Str) (dir : Str)
    (executable_path : Str) : Str :=
  joinSemicolon (build_trusted_platform_assemblies_list names dir executable_path)

/- ------------------------------------------------------------------
  Normalization predicates used in the statements
------------------------------------------------------------------- -/

/-- A path is normalized when it is nonempty, does not end in a slash,
contains neither the parent-reference nor the current-directory pattern,
and does not end in slash-dot-dot or slash-dot; the last four conditions
are exactly the tests of path_combine_recursive phrased on the path
itself. -/
def normalizedPath (p : Str) : Prop :=
  p ≠ [] ∧ p.getLast? ≠ some '/' ∧
    strstrIdx parentPat p = none ∧ strstrIdx dotPat p = none ∧
    p.drop (p.length - 3) ≠ chars "/.." ∧ p.drop (p.length - 2) ≠ chars "/."

instance (p : Str) : Decidable (normalizedPath p) := by
  unfold normalizedPath; infer_instance

/-- A well-formed directory-entry name: nonempty, free of separators,
and not one of the two dot entries as pal_fs_list_impl tests them. -/
def cleanEntryName (n : Str) : Prop :=
  n ≠ [] ∧ (∀ c ∈ n, c ≠ '/') ∧
    pal_str_iequals n (chars ".") = false ∧ pal_str_iequals n (chars "..") = false

instance (n : Str) : Decidable (cleanEntryName n) := by
  unfold cleanEntryName; infer_instance

/- ------------------------------------------------------------------
  Concrete sample data used by the witness evaluations
------------------------------------------------------------------- -/

/-- A bootstrap run in which every external call succeeds and the
managed entry point returns 42. -/
def runWorldSuccess : RunWorld :=
  { executable_file_exists := true
    working_directory := some (chars "/apps/foo")
    core_clr_instance_found := true
    runtime_host_obtained := true
    set_startup_flags_hr := 0
    start_hr := 0
    trusted_platform_assemblies_value := chars "tpa"
    create_appdomain_ok := true
    execute_assembly_hr := 0
    execute_assembly_exit_code := 42
    unload_appdomain_hr := 0
    stop_hr := 0 }

/-- The successful run except that SetStartupFlags fails (E_FAIL). -/
def runWorldSetStartupFlagsFails : RunWorld :=
  { runWorldSuccess with set_startup_flags_hr := -2147467259 }

/-- The successful run except that the host Start call fails. -/
def runWorldStartFails : RunWorld :=
  { runWorldSuccess with start_hr := -2147467259 }

/-- The successful run except that no runtime instance is found. -/
def runWorldNoCoreClr : RunWorld :=
  { runWorldSuccess with core_clr_instance_found := false }

/-- The installed-runtimes root after environment expansion of the
well-known template with programfiles set to pf. -/
def sampleRootPath : Str := chars "pf\\dotnet\\shared\\microsoft.netcore.app"

/-- The runtime library path of the 2.0.0 candidate. -/
def sampleDll200 : Str := sampleRootPath ++ chars "/2.0.0/coreclr.dll"

/-- The runtime library path of the 2.1.5 candidate. -/
def sampleDll215 : Str := sampleRootPath ++ chars "/2.1.5/coreclr.dll"

/-- A target executable path. -/
def sampleExe : Str := chars "/apps/foo/foo.exe"

/-- A world with no co-located runtime and two installed candidates of
which only 2.0.0 loads. -/
def sampleWorld : World :=
  { subdirectories := [(sampleRootPath, [chars "2.0.0", chars "2.1.5"])]
    files := [sampleDll200, sampleDll215]
    loadable := [sampleDll200]
    pinnable := [sampleDll200]
    env := [(chars "programfiles", chars "pf")] }

/-- A world in which the executable directory itself holds a loadable
runtime library (the self-contained case). -/
def sampleWorldSelf : World :=
  { subdirectories := []
    files := [chars "/apps/foo/coreclr.dll"]
    loadable := [chars "/apps/foo/coreclr.dll"]
    pinnable := [chars "/apps/foo/coreclr.dll"]
    env := [] }

/-- The installed-runtimes root used in the locator samples. -/
def scanRootPath : Str := chars "/rt"

/-- A world whose runtimes root holds two version directories and one
unparsable entry. -/
def scanWorldWithGarbage : World :=
  { subdirectories := [(scanRootPath, [chars "1.0.0", chars "garbage", chars "2.0.0"])]
    files := [chars "/rt/1.0.0/coreclr.dll", chars "/rt/2.0.0/coreclr.dll"]
    loadable := []
    pinnable := []
    env := [] }

/-- The same world with the unparsable entry removed. -/
def scanWorldClean : World :=
  { subdirectories := [(scanRootPath, [chars "1.0.0", chars "2.0.0"])]
    files := [chars "/rt/1.0.0/coreclr.dll", chars "/rt/2.0.0/coreclr.dll"]
    loadable := []
    pinnable := []
    env := [] }

/-- Prerelease comparison at the propositional level: a prerelease tag
precedes its absence, two tags compare lexically. -/
def preLtP : Option Str → Option Str → Prop
  | none, none => False
  | some _, none => True
  | none, some _ => False
  | some x, some y => lexLt x y = true

/-- Propositional reading of semverLt, used to reason about the order. -/
def semverLtP (a b : Semver) : Prop :=
  a.major < b.major ∨ (a.major = b.major ∧ (a.minor < b.minor ∨ (a.minor = b.minor ∧
    (a.patch < b.patch ∨ (a.patch = b.patch ∧ preLtP a.prerelease b.prerelease)))))

/- ------------------------------------------------------------------
  Helper lemmas: strings and searching
------------------------------------------------------------------- -/

theorem zip_self_all_iequals (n : Str) :
    (List.zip n n).all
      (fun p => decide (p.1 = p.2) || decide (p.1.toUpper = p.2.toUpper)) = true := by
  induction n with
  | nil => rfl
  | cons a t ih => simpa using ih

theorem pal_str_iequals_refl (n : Str) : pal_str_iequals n n = true := by
  unfold pal_str_iequals
  simp [zip_self_all_iequals]

theorem startsWithL_iff (pat : Str) : ∀ s : Str, startsWithL pat s = true ↔ pat <+: s := by
  induction pat with
  | nil => intro s; simp [startsWithL]
  | cons a t ih =>
    intro s
    cases s with
    | nil => simp [startsWithL]
    | cons b u =>
      simp only [startsWithL, Bool.and_eq_true, decide_eq_true_eq, List.cons_prefix_cons, ih]

theorem strstrIdx_none_iff (pat s : Str) :
    strstrIdx pat s = none ↔ ∀ i, ¬ pat <+: s.drop i := by
  induction s with
  | nil =>
    unfold strstrIdx
    by_cases hp : pat = []
    · subst hp
      simp
    · simp only [if_neg hp]
      simp [hp, List.prefix_nil]
  | cons c rest ih =>
    unfold strstrIdx
    by_cases hs : startsWithL pat (c :: rest) = true
    · simp only [if_pos hs]
      constructor
      · intro h; exact absurd h (by simp)
      · intro h
        exact absurd ((startsWithL_iff pat (c :: rest)).mp hs) (by simpa using h 0)
    · simp only [if_neg hs, Option.map_eq_none', ih]
      constructor
      · intro h i
        cases i with
        | zero =>
          intro hc
          exact hs ((startsWithL_iff pat (c :: rest)).mpr hc)
        | succ j => simpa using h j
      · intro h i
        simpa using h (i + 1)

theorem prefix_of_append_of_le {pat x y : Str} (h : pat <+: x ++ y)
    (hl : pat.length ≤ x.length) : pat <+: x := by
  rw [ List.prefix_iff_eq_take] at h ⊢
  rw [List.take_append_eq_append_take, Nat.sub_eq_zero_of_le hl] at h
  simpa using h

theorem prefix_append_split {pat x y : Str} (h : pat <+: x ++ y)
    (hl : x.length ≤ pat.length) : ∃ z, pat = x ++ z ∧ z <+: y := by
  rw [ List.prefix_iff_eq_take] at h
  rw [List.take_append_eq_append_take, List.take_of_length_le hl] at h
  exact ⟨y.take (pat.length - x.length), h, List.take_prefix _ _⟩

theorem mem_of_mem_of_leading_part {a : Char} {l₁ l₂ : Str} (ha : a ∈ l₁) (h : l₁ <+: l₂) :
    a ∈ l₂ :=
  h.sublist.mem ha

theorem lastSlashIdx_none_of_no_slash (n : Str) (h : ∀ c ∈ n, c ≠ '/') :
    lastSlashIdx n = none := by
  induction n with
  | nil => rfl
  | cons a t ih =>
    unfold lastSlashIdx
    rw [ih (fun c hc => h c (List.mem_cons_of_mem a hc))]
    simp [h a (List.mem_cons_self a t)]

theorem lastSlashIdx_append_clean (d n : Str) (h : ∀ c ∈ n, c ≠ '/') :
    lastSlashIdx (d ++ '/' :: n) = some d.length := by
  induction d with
  | nil =>
    simp only [List.nil_append]
    unfold lastSlashIdx
    rw [lastSlashIdx_none_of_no_slash n h]
    simp
  | cons a t ih =>
    simp only [List.cons_append]
    unfold lastSlashIdx
    rw [ih]
    simp

theorem pal_fs_get_directory_name_append (d n : Str) (h : ∀ c ∈ n, c ≠ '/') :
    pal_fs_get_directory_name (d ++ '/' :: n) = some n := by
  unfold pal_fs_get_directory_name
  rw [lastSlashIdx_append_clean d n h]
  show some ((d ++ '/' :: n).drop (d.length + 1)) = some n
  congr 1
  rw [show d ++ '/' :: n = (d ++ ['/']) ++ n by simp]
  rw [show d.length + 1 = (d ++ ['/']).length by simp]
  exact List.drop_left _ _

theorem strstr_parent_clean (d n : Str)
    (h1 : strstrIdx parentPat d = none)
    (h3 : d.drop (d.length - 3) ≠ chars "/..")
    (hn : ∀ c ∈ n, c ≠ '/') :
    strstrIdx parentPat (d ++ '/' :: n) = none := by
  have hpp : parentPat = ['/', '.', '.', '/'] := rfl
  rw [strstrIdx_none_iff] at h1 ⊢
  intro i hp
  rw [List.drop_append_eq_append_drop] at hp
  by_cases hi : i ≤ d.length
  · rw [Nat.sub_eq_zero_of_le hi, List.drop_zero] at hp
    by_cases hlen : i + 4 ≤ d.length
    · refine h1 i (prefix_of_append_of_le hp ?_)
      rw [hpp]
      simp only [List.length_cons, List.length_nil, List.length_drop]
      omega
    · obtain ⟨z, hz, hzp⟩ := prefix_append_split hp
        (by rw [hpp]; simp only [List.length_cons, List.length_nil, List.length_drop]; omega)
      have hxlen : (d.drop i).length = d.length - i := by simp
      have hk3 : d.length - i ≤ 3 := by omega
      rw [hpp] at hz
      cases hx : d.drop i with
      | nil =>
        rw [hx] at hz
        simp only [List.nil_append] at hz
        rw [← hz] at hzp
        rcases List.cons_prefix_cons.mp hzp with ⟨-, htail⟩
        exact hn '/' (mem_of_mem_of_leading_part (by simp) htail) rfl
      | cons a x1 =>
        cases x1 with
        | nil =>
          rw [hx] at hz
          simp only [List.cons_append, List.nil_append] at hz
          injection hz with ha hz2
          rw [← hz2] at hzp
          rcases List.cons_prefix_cons.mp hzp with ⟨hdot, -⟩
          exact absurd hdot (by decide)
        | cons b x2 =>
          cases x2 with
          | nil =>
            rw [hx] at hz
            simp only [List.cons_append, List.nil_append] at hz
            injection hz with ha hz2
            injection hz2 with hb hz3
            rw [← hz3] at hzp
            rcases List.cons_prefix_cons.mp hzp with ⟨hdot, -⟩
            exact absurd hdot (by decide)
          | cons c x3 =>
            cases x3 with
            | nil =>
              rw [hx] at hz
              simp only [List.cons_append, List.nil_append] at hz
              injection hz with ha hz2
              injection hz2 with hb hz3
              injection hz3 with hc hz4
              apply h3
              have hileq : d.length - 3 = i := by
                rw [hx] at hxlen
                simp at hxlen
                omega
              rw [hileq, hx, ← ha, ← hb, ← hc]
              rfl
            | cons e x4 =>
              exfalso
              have := congrArg List.length hx
              simp only [List.length_drop, List.length_cons] at this
              omega
  · have hdd : d.drop i = [] := List.drop_eq_nil_of_le (by omega)
    rw [hdd, List.nil_append] at hp
    obtain ⟨j, hj⟩ : ∃ j, i - d.length = j + 1 := ⟨i - d.length - 1, by omega⟩
    rw [hj, List.drop_succ_cons] at hp
    exact hn '/' (List.mem_of_mem_drop (mem_of_mem_of_leading_part (by rw [hpp]; simp) hp)) rfl

theorem strstr_dot_clean (d n : Str)
    (h2 : strstrIdx dotPat d = none)
    (h4 : d.drop (d.length - 2) ≠ chars "/.")
    (hn : ∀ c ∈ n, c ≠ '/') :
    strstrIdx dotPat (d ++ '/' :: n) = none := by
  have hpp : dotPat = ['/', '.', '/'] := rfl
  rw [strstrIdx_none_iff] at h2 ⊢
  intro i hp
  rw [List.drop_append_eq_append_drop] at hp
  by_cases hi : i ≤ d.length
  · rw [Nat.sub_eq_zero_of_le hi, List.drop_zero] at hp
    by_cases hlen : i + 3 ≤ d.length
    · refine h2 i (prefix_of_append_of_le hp ?_)
      rw [hpp]
      simp only [List.length_cons, List.length_nil, List.length_drop]
      omega
    · obtain ⟨z, hz, hzp⟩ := prefix_append_split hp
        (by rw [hpp]; simp only [List.length_cons, List.length_nil, List.length_drop]; omega)
      have hxlen : (d.drop i).length = d.length - i := by simp
      have hk2 : d.length - i ≤ 2 := by omega
      rw [hpp] at hz
      cases hx : d.drop i with
      | nil =>
        rw [hx] at hz
        simp only [List.nil_append] at hz
        rw [← hz] at hzp
        rcases List.cons_prefix_cons.mp hzp with ⟨-, htail⟩
        exact hn '/' (mem_of_mem_of_leading_part (by simp) htail) rfl
      | cons a x1 =>
        cases x1 with
        | nil =>
          rw [hx] at hz
          simp only [List.cons_append, List.nil_append] at hz
          injection hz with ha hz2
          rw [← hz2] at hzp
          rcases List.cons_prefix_cons.mp hzp with ⟨hdot, -⟩
          exact absurd hdot (by decide)
        | cons b x2 =>
          cases x2 with
          | nil =>
            rw [hx] at hz
            simp only [List.cons_append, List.nil_append] at hz
            injection hz with ha hz2
            injection hz2 with hb hz3
            apply h4
            have hileq : d.length - 2 = i := by
              rw [hx] at hxlen
              simp at hxlen
              omega
            rw [hileq, hx, ← ha, ← hb]
            rfl
          | cons c x3 =>
            exfalso
            have := congrArg List.length hx
            simp only [List.length_drop, List.length_cons] at this
            omega
  · have hdd : d.drop i = [] := List.drop_eq_nil_of_le (by omega)
    rw [hdd, List.nil_append] at hp
    obtain ⟨j, hj⟩ : ∃ j, i - d.length = j + 1 := ⟨i - d.length - 1, by omega⟩
    rw [hj, List.drop_succ_cons] at hp
    exact hn '/' (List.mem_of_mem_drop (mem_of_mem_of_leading_part (by rw [hpp]; simp) hp)) rfl

theorem resolveParentLoop_no_occur (fuel : Nat) (s : Str)
    (h : strstrIdx parentPat s = none) :
    resolveParentLoop (fuel + 1) s = some s := by
  unfold resolveParentLoop
  rw [h]

theorem resolveDotLoop_no_occur (fuel : Nat) (s : Str)
    (h : strstrIdx dotPat s = none) :
    resolveDotLoop (fuel + 1) s = s := by
  unfold resolveDotLoop
  rw [h]

theorem normalizedPath_extend (d n : Str) (hd : normalizedPath d)
    (hn : ∀ c ∈ n, c ≠ '/') (hne : n ≠ [])
    (h1 : n ≠ chars ".") (h2 : n ≠ chars "..") :
    normalizedPath (d ++ '/' :: n) := by
  obtain ⟨hdne, hdlast, hdpar, hddot, hd3, hd2⟩ := hd
  refine ⟨by simp, ?_, strstr_parent_clean d n hdpar hd3 hn,
    strstr_dot_clean d n hddot hd2 hn, ?_, ?_⟩
  · rcases List.eq_nil_or_concat n with rfl | ⟨ys, y, rfl⟩
    · exact absurd rfl hne
    · rw [show d ++ '/' :: ys.concat y = (d ++ '/' :: ys) ++ [y] by
        simp [List.concat_eq_append], List.getLast?_concat]
      intro hc
      injection hc with hy
      exact hn y (by simp [List.concat_eq_append]) hy
  · cases n with
    | nil => exact absurd rfl hne
    | cons a t =>
      cases t with
      | nil =>
        intro hc
        rw [show chars "/.." = ['/', '.', '.'] from rfl] at hc
        rw [show (d ++ '/' :: [a]).length = d.length + 2 by simp,
          show d.length + 2 - 3 = d.length - 1 by omega,
          List.drop_append_eq_append_drop,
          Nat.sub_eq_zero_of_le (show d.length - 1 ≤ d.length by omega),
          List.drop_zero] at hc
        have hpos : 0 < d.length := List.length_pos.mpr hdne
        have hdl : (d.drop (d.length - 1)).length = 1 := by
          simp only [List.length_drop]
          omega
        obtain ⟨x, hx⟩ := List.length_eq_one.mp hdl
        rw [hx] at hc
        simp at hc
      | cons b t2 =>
        cases t2 with
        | nil =>
          intro hc
          rw [show chars "/.." = ['/', '.', '.'] from rfl] at hc
          rw [show (d ++ '/' :: [a, b]).length = d.length + 3 by simp,
            show d.length + 3 - 3 = d.length by omega,
            List.drop_left] at hc
          simp only [List.cons.injEq, and_true] at hc
          apply h2
          rw [hc.2.1, hc.2.2]
          rfl
        | cons c t3 =>
          intro hc
          rw [show chars "/.." = ['/', '.', '.'] from rfl] at hc
          have hlen3 : 3 ≤ (a :: b :: c :: t3 : Str).length := by
            simp only [List.length_cons]
            omega
          rw [show d ++ '/' :: (a :: b :: c :: t3) =
              (d ++ ['/']) ++ (a :: b :: c :: t3) by simp] at hc
          rw [show ((d ++ ['/']) ++ (a :: b :: c :: t3)).length - 3 =
              (d ++ ['/']).length + ((a :: b :: c :: t3 : Str).length - 3) by
                simp only [List.length_append, List.length_cons]
                simp
                omega,
            List.drop_append] at hc
          have hmem : '/' ∈ (a :: b :: c :: t3 : Str).drop
              ((a :: b :: c :: t3 : Str).length - 3) := by
            rw [hc]
            simp
          exact hn '/' (List.mem_of_mem_drop hmem) rfl
  · cases n with
    | nil => exact absurd rfl hne
    | cons a t =>
      cases t with
      | nil =>
        intro hc
        rw [show chars "/." = ['/', '.'] from rfl] at hc
        rw [show (d ++ '/' :: [a]).length = d.length + 2 by simp,
          show d.length + 2 - 2 = d.length by omega,
          List.drop_left] at hc
        simp only [List.cons.injEq, and_true] at hc
        apply h1
        rw [hc.2]
        rfl
      | cons b t2 =>
        intro hc
        rw [show chars "/." = ['/', '.'] from rfl] at hc
        have hlen2 : 2 ≤ (a :: b :: t2 : Str).length := by
          simp only [List.length_cons]
          omega
        rw [show d ++ '/' :: (a :: b :: t2) =
            (d ++ ['/']) ++ (a :: b :: t2) by simp] at hc
        rw [show ((d ++ ['/']) ++ (a :: b :: t2)).length - 2 =
            (d ++ ['/']).length + ((a :: b :: t2 : Str).length - 2) by
              simp only [List.length_append, List.length_cons]
              simp
              omega,
          List.drop_append] at hc
        have hmem : '/' ∈ (a :: b :: t2 : Str).drop
            ((a :: b :: t2 : Str).length - 2) := by
          rw [hc]
          simp
        exact hn '/' (List.mem_of_mem_drop hmem) rfl

theorem pcr_of_normalized (s : Str) (hs : normalizedPath s) :
    pathCombineRecursive (s.length + 1) s = some s := by
  obtain ⟨hne, hlast, hpar, hdot, h3, h2⟩ := hs
  simp only [pathCombineRecursive]
  rw [if_neg (show ¬ s.length = 0 from fun h => hne (List.length_eq_zero.mp h))]
  simp only [resolveParentLoop_no_occur s.length s hpar,
    resolveDotLoop_no_occur s.length s hdot]
  rw [if_neg hlast, if_neg h2, if_neg h3]

theorem pal_fs_path_combine_clean (d n : Str) (hd : normalizedPath d)
    (hn : ∀ c ∈ n, c ≠ '/') (hne : n ≠ [])
    (h1 : n ≠ chars ".") (h2 : n ≠ chars "..") :
    pal_fs_path_combine d n = some (d ++ '/' :: n) := by
  have hs := normalizedPath_extend d n hd hn hne h1 h2
  unfold pal_fs_path_combine
  rw [if_neg (show ¬ n.head? = some '/' from ?_),
    if_neg (show ¬ d.getLast? = some '/' from hd.2.1)]
  · have hlen : (d ++ '/' :: n).length + 1 = (d ++ '/' :: n).length + 1 := rfl
    exact pcr_of_normalized (d ++ '/' :: n) hs
  · cases n with
    | nil => simp
    | cons a t =>
      simp only [List.head?_cons]
      intro hc
      injection hc with ha
      exact hn a (List.mem_cons_self a t) ha

theorem pal_fs_path_combine_dot (p : Str) (hp : normalizedPath p) :
    pal_fs_path_combine p (chars ".") = some p := by
  obtain ⟨hne, hlast, hpar, hdot, h3, h2⟩ := hp
  have hdotchars : chars "." = ['.'] := rfl
  have hpar2 : strstrIdx parentPat (p ++ '/' :: ['.']) = none :=
    strstr_parent_clean p ['.'] hpar h3 (by intro c hc; simp at hc; subst hc; decide)
  have hdot2 : strstrIdx dotPat (p ++ '/' :: ['.']) = none :=
    strstr_dot_clean p ['.'] hdot h2 (by intro c hc; simp at hc; subst hc; decide)
  unfold pal_fs_path_combine
  rw [if_neg (show ¬ (chars ".").head? = some '/' by decide),
    if_neg (show ¬ p.getLast? = some '/' from hlast), hdotchars]
  simp only [pathCombineRecursive]
  rw [if_neg (show ¬ (p ++ '/' :: ['.']).length = 0 by simp)]
  simp only [resolveParentLoop_no_occur (p ++ '/' :: ['.']).length _ hpar2,
    resolveDotLoop_no_occur (p ++ '/' :: ['.']).length _ hdot2]
  have hl : (p ++ '/' :: ['.']).getLast? = some '.' := by
    rw [show p ++ '/' :: ['.'] = (p ++ ['/']) ++ ['.'] by simp, List.getLast?_concat]
  rw [if_neg (show ¬ (p ++ '/' :: ['.']).getLast? = some '/' by rw [hl]; decide)]
  have hslen : (p ++ '/' :: ['.']).length = p.length + 2 := by simp
  have hdrop : (p ++ '/' :: ['.']).drop ((p ++ '/' :: ['.']).length - 2) = chars "/." := by
    rw [hslen, show p.length + 2 - 2 = p.length by omega,
      show p ++ '/' :: ['.'] = p ++ ['/', '.'] by simp, List.drop_left]
    rfl
  rw [if_pos hdrop]
  congr 1
  rw [hslen, show p.length + 2 - 2 = p.length by omega,
    show p ++ '/' :: ['.'] = p ++ ['/', '.'] by simp]
  exact List.take_left p ['/', '.']

/- ------------------------------------------------------------------
  Helper lemmas: the version order
------------------------------------------------------------------- -/

theorem semverLt_iff (a b : Semver) : semverLt a b = true ↔ semverLtP a b := by
  obtain ⟨ma, mi, pa, pr⟩ := a
  obtain ⟨mb, mib, pb, prb⟩ := b
  simp only [semverLt, semverLtP]
  split_ifs with h1 h2 h3 <;> cases pr <;> cases prb <;> simp_all [preLtP]

theorem lexLt_asymm : ∀ x y : Str, lexLt x y = true → lexLt y x = false := by
  intro x
  induction x with
  | nil => intro y h; cases y <;> simp_all [lexLt]
  | cons a t ih =>
    intro y h
    cases y with
    | nil => simp_all [lexLt]
    | cons b u =>
      simp only [lexLt] at h ⊢
      by_cases hab : a = b
      · subst hab
        rw [if_pos rfl] at h ⊢
        exact ih u h
      · rw [if_neg hab] at h
        rw [if_neg (fun he => hab he.symm)]
        simp only [decide_eq_true_eq] at h
        simp only [decide_eq_false_iff_not]
        exact fun hba => absurd (lt_trans h hba) (lt_irrefl a)

theorem lexLt_trans : ∀ x y z : Str,
    lexLt x y = true → lexLt y z = true → lexLt x z = true := by
  intro x
  induction x with
  | nil =>
    intro y z h1 h2
    cases y with
    | nil => simp_all [lexLt]
    | cons b u =>
      cases z with
      | nil => simp_all [lexLt]
      | cons c v => simp [lexLt]
  | cons a t ih =>
    intro y z h1 h2
    cases y with
    | nil => simp_all [lexLt]
    | cons b u =>
      cases z with
      | nil => simp_all [lexLt]
      | cons c v =>
        simp only [lexLt] at h1 h2 ⊢
        by_cases hab : a = b <;> by_cases hbc : b = c
        · subst hab; subst hbc
          rw [if_pos rfl] at h1 h2 ⊢
          exact ih u v h1 h2
        · subst hab
          rw [if_pos rfl] at h1
          rw [if_neg hbc] at h2 ⊢
          exact h2
        · subst hbc
          rw [if_neg hab] at h1 ⊢
          exact h1
        · rw [if_neg hab] at h1
          rw [if_neg hbc] at h2
          simp only [decide_eq_true_eq] at h1 h2
          have hac : a < c := lt_trans h1 h2
          rw [if_neg (fun he => absurd (he ▸ hac) (lt_irrefl _))]
          simpa using hac

theorem lexLt_connex : ∀ x y : Str, lexLt x y = false → lexLt y x = false → x = y := by
  intro x
  induction x with
  | nil => intro y h1 h2; cases y <;> simp_all [lexLt]
  | cons a t ih =>
    intro y h1 h2
    cases y with
    | nil => simp_all [lexLt]
    | cons b u =>
      simp only [lexLt] at h1 h2
      by_cases hab : a = b
      · subst hab
        rw [if_pos rfl] at h1 h2
        rw [ih u h1 h2]
      · rw [if_neg hab] at h1
        rw [if_neg (fun he => hab he.symm)] at h2
        simp only [decide_eq_false_iff_not] at h1 h2
        rcases lt_or_gt_of_ne hab with hlt | hgt
        · exact absurd hlt h1
        · exact absurd hgt h2

theorem preLtP_asymm : ∀ x y : Option Str, preLtP x y → preLtP y x → False := by
  intro x y h1 h2
  cases x <;> cases y <;> simp_all [preLtP]
  have := lexLt_asymm _ _ h1
  simp_all

theorem preLtP_trans : ∀ x y z : Option Str, preLtP x y → preLtP y z → preLtP x z := by
  intro x y z h1 h2
  cases x <;> cases y <;> cases z <;> simp_all [preLtP]
  exact lexLt_trans _ _ _ h1 h2

theorem preLtP_connex : ∀ x y : Option Str, ¬ preLtP x y → ¬ preLtP y x → x = y := by
  intro x y h1 h2
  cases x <;> cases y <;> simp_all [preLtP]
  exact lexLt_connex _ _ (by simpa using h1) (by simpa using h2)

theorem lexStep_asymm {x y : Nat} {p q : Prop} (hpq : p → q → False)
    (h1 : x < y ∨ (x = y ∧ p)) (h2 : y < x ∨ (y = x ∧ q)) : False := by
  rcases h1 with h1 | ⟨e1, h1⟩ <;> rcases h2 with h2 | ⟨e2, h2⟩ <;>
    first
    | omega
    | exact hpq h1 h2

theorem lexStep_trans {x y z : Nat} {p q r : Prop} (hpq : p → q → r)
    (h1 : x < y ∨ (x = y ∧ p)) (h2 : y < z ∨ (y = z ∧ q)) :
    x < z ∨ (x = z ∧ r) := by
  rcases h1 with h1 | ⟨e1, h1⟩ <;> rcases h2 with h2 | ⟨e2, h2⟩
  · exact Or.inl (by omega)
  · exact Or.inl (by omega)
  · exact Or.inl (by omega)
  · exact Or.inr ⟨by omega, hpq h1 h2⟩

theorem lexStep_connex {x y : Nat} {p q : Prop}
    (h1 : ¬ (x < y ∨ (x = y ∧ p))) (h2 : ¬ (y < x ∨ (y = x ∧ q))) :
    x = y ∧ ¬ p ∧ ¬ q := by
  push_neg at h1 h2
  have hxy : x = y := by omega
  exact ⟨hxy, h1.2 hxy, h2.2 hxy.symm⟩

theorem semverLtP_asymm (a b : Semver) (h1 : semverLtP a b) (h2 : semverLtP b a) :
    False := by
  unfold semverLtP at h1 h2
  exact lexStep_asymm (lexStep_asymm (lexStep_asymm (preLtP_asymm _ _))) h1 h2

theorem semverLtP_trans (a b c : Semver) (h1 : semverLtP a b) (h2 : semverLtP b c) :
    semverLtP a c := by
  unfold semverLtP at h1 h2 ⊢
  exact lexStep_trans (lexStep_trans (lexStep_trans (preLtP_trans _ _ _))) h1 h2

theorem semverLtP_connex (a b : Semver) (h1 : ¬ semverLtP a b) (h2 : ¬ semverLtP b a) :
    a = b := by
  unfold semverLtP at h1 h2
  obtain ⟨e1, h1, h2⟩ := lexStep_connex h1 h2
  obtain ⟨e2, h1, h2⟩ := lexStep_connex h1 h2
  obtain ⟨e3, h1, h2⟩ := lexStep_connex h1 h2
  have e4 : a.prerelease = b.prerelease := preLtP_connex _ _ h1 h2
  obtain ⟨ma, mi, pa, pr⟩ := a
  obtain ⟨mb, mib, pb, prb⟩ := b
  simp_all

theorem semverLt_asymm (a b : Semver) (h : semverLt a b = true) :
    semverLt b a = false := by
  rw [semverLt_iff] at h
  rw [← Bool.not_eq_true, semverLt_iff]
  exact fun h2 => semverLtP_asymm a b h h2

theorem semverLt_trans_bool (a b c : Semver) (h1 : semverLt a b = true)
    (h2 : semverLt b c = true) : semverLt a c = true := by
  rw [semverLt_iff] at h1 h2 ⊢
  exact semverLtP_trans a b c h1 h2

theorem semverLt_connex_bool (a b : Semver) (h1 : semverLt a b = false)
    (h2 : semverLt b a = false) : a = b := by
  refine semverLtP_connex a b ?_ ?_
  · rw [← semverLt_iff, h1]
    simp
  · rw [← semverLt_iff, h2]
    simp

theorem semverLt_of_not_lt_of_ne {x y : Semver} (h : semverLt y x = false)
    (hne : x ≠ y) : semverLt x y = true := by
  by_contra h2
  rw [Bool.not_eq_true] at h2
  exact hne (semverLt_connex_bool x y h2 h)

instance : IsTotal CoreClrDirectory coreDirLe :=
  ⟨fun a b => by
    unfold coreDirLe
    by_cases h : semverLt b.version a.version = true
    · exact Or.inr (semverLt_asymm _ _ h)
    · rw [Bool.not_eq_true] at h
      exact Or.inl h⟩

instance : IsTrans CoreClrDirectory coreDirLe :=
  ⟨fun a b c hab hbc => by
    unfold coreDirLe at hab hbc ⊢
    by_contra hca
    rw [Bool.not_eq_false] at hca
    by_cases hba : semverLt a.version b.version = true
    · have := semverLt_trans_bool _ _ _ hca hba
      rw [hbc] at this
      exact Bool.false_ne_true this
    · rw [Bool.not_eq_true] at hba
      have hval : a.version = b.version := semverLt_connex_bool _ _ hba hab
      rw [hval] at hca
      rw [hbc] at hca
      exact Bool.false_ne_true hca⟩

/- ------------------------------------------------------------------
  Helper lemmas: listings, folds and scans
------------------------------------------------------------------- -/

theorem ne_of_length_ne {x y : Str} (h : x.length ≠ y.length) : x ≠ y :=
  fun he => h (he ▸ rfl)

theorem pal_str_iequals_false_of_length_ne {x y : Str} (h : x.length ≠ y.length) :
    pal_str_iequals x y = false := by
  unfold pal_str_iequals
  simp [h]

theorem cleanEntryName_ne_dots {n : Str} (h : cleanEntryName n) :
    n ≠ chars "." ∧ n ≠ chars ".." := by
  constructor
  · intro he
    rw [he] at h
    have hfalse := h.2.2.1
    rw [pal_str_iequals_refl] at hfalse
    exact absurd hfalse (by simp)
  · intro he
    rw [he] at h
    have hfalse := h.2.2.2
    rw [pal_str_iequals_refl] at hfalse
    exact absurd hfalse (by simp)

theorem notDotEntry_of_clean {n : Str} (h : cleanEntryName n) :
    notDotEntry n = true := by
  unfold notDotEntry
  rw [h.2.2.1, h.2.2.2]
  rfl

theorem combine_of_clean {root n : Str} (hroot : normalizedPath root)
    (h : cleanEntryName n) :
    pal_fs_path_combine root n = some (root ++ '/' :: n) :=
  pal_fs_path_combine_clean root n hroot h.2.1 h.1
    (cleanEntryName_ne_dots h).1 (cleanEntryName_ne_dots h).2

theorem foldr_combine_eq_filterMap (dir : Str) (names : List Str) :
    names.foldr (fun n acc =>
      match pal_fs_path_combine dir n with
      | none => acc
      | some p => p :: acc) [] = names.filterMap (pal_fs_path_combine dir) := by
  induction names with
  | nil => rfl
  | cons a t ih =>
    simp only [List.foldr_cons, List.filterMap_cons, ih]
    cases pal_fs_path_combine dir a <;> rfl

theorem filterMap_combine_clean (root : Str) (names : List Str)
    (hroot : normalizedPath root) (hclean : ∀ n ∈ names, cleanEntryName n) :
    names.filterMap (pal_fs_path_combine root) =
      names.map (fun n => root ++ '/' :: n) := by
  induction names with
  | nil => rfl
  | cons a t ih =>
    rw [List.filterMap_cons, List.map_cons,
      combine_of_clean hroot (hclean a (List.mem_cons_self a t))]
    rw [ih (fun n hn => hclean n (List.mem_cons_of_mem a hn))]

theorem pal_fs_list_directories_clean (w : World) (root : Str) (names : List Str)
    (hroot : normalizedPath root)
    (hlk : lookupDir w.subdirectories root = some names)
    (hclean : ∀ n ∈ names, cleanEntryName n) :
    pal_fs_list_directories w root =
      some (names.map (fun n => root ++ '/' :: n)) := by
  unfold pal_fs_list_directories
  simp only [hlk]
  rw [List.filter_eq_self.mpr (fun n hn => notDotEntry_of_clean (hclean n hn))]
  rw [foldr_combine_eq_filterMap, filterMap_combine_clean root names hroot hclean]

theorem scan_core_clr_path_spec {w : World} {minV : Semver} {p : Str}
    {d : CoreClrDirectory} (h : scan_core_clr_path w minV p = some d) :
    semverLt d.version minV = false ∧ pal_fs_file_exists w d.dll_path = true ∧
      pal_fs_path_combine d.root_path core_clr_dll = some d.dll_path ∧
      d.root_path = p ∧
      ∃ name, pal_fs_get_directory_name p = some name ∧
        parseSemver name = some d.version := by
  unfold scan_core_clr_path at h
  cases hname : pal_fs_get_directory_name p with
  | none => simp only [hname] at h; exact absurd h (by simp)
  | some name =>
    simp only [hname] at h
    cases hver : parseSemver name with
    | none => simp only [hver] at h; exact absurd h (by simp)
    | some v =>
      simp only [hver] at h
      by_cases hmin : semverLt v minV = true
      · rw [if_pos hmin] at h; exact absurd h (by simp)
      · rw [if_neg hmin] at h
        cases hcomb : pal_fs_path_combine p core_clr_dll with
        | none => simp only [hcomb] at h; exact absurd h (by simp)
        | some dll =>
          simp only [hcomb] at h
          by_cases hex : pal_fs_file_exists w dll = true
          · rw [if_pos hex] at h
            injection h with hd
            subst hd
            rw [Bool.not_eq_true] at hmin
            exact ⟨hmin, hex, hcomb, rfl, name, rfl, hver⟩
          · rw [if_neg hex] at h; exact absurd h (by simp)

theorem filterMap_map_version_sublist {α : Type} (g : α → Option CoreClrDirectory)
    (h : α → Option Semver) (l : List α)
    (him : ∀ a ∈ l, ∀ d, g a = some d → h a = some d.version) :
    List.Sublist ((l.filterMap g).map CoreClrDirectory.version) (l.filterMap h) := by
  induction l with
  | nil => simp
  | cons a t ih =>
    have iht := ih (fun x hx d hd => him x (List.mem_cons_of_mem a hx) d hd)
    rw [List.filterMap_cons, List.filterMap_cons]
    cases hg : g a with
    | none =>
      cases h a with
      | none => exact iht
      | some v => exact iht.cons v
    | some d =>
      rw [him a (List.mem_cons_self a t) d hg]
      simpa using iht.cons₂ d.version

theorem foldl_addIfNew_append (l : List Str) :
    ∀ acc, ∃ ex, l.foldl addIfNew acc = acc ++ ex ∧ ∀ p ∈ ex, p ∈ l := by
  induction l with
  | nil => exact fun acc => ⟨[], by simp, by simp⟩
  | cons a t ih =>
    intro acc
    rw [List.foldl_cons]
    obtain ⟨ex, hex, hsub⟩ := ih (addIfNew acc a)
    by_cases ha : a ∈ acc
    · have heq : addIfNew acc a = acc := by unfold addIfNew; rw [if_pos ha]
      rw [heq] at hex
      exact ⟨ex, by rw [heq]; exact hex, fun p hp => List.mem_cons_of_mem a (hsub p hp)⟩
    · have heq : addIfNew acc a = acc ++ [a] := by unfold addIfNew; rw [if_neg ha]
      rw [heq] at hex
      refine ⟨a :: ex, ?_, ?_⟩
      · rw [heq, hex, List.append_assoc]
        rfl
      · intro p hp
        rcases List.mem_cons.mp hp with rfl | hp
        · exact List.mem_cons_self p t
        · exact List.mem_cons_of_mem a (hsub p hp)

theorem mem_foldl_addIfNew_iff (l : List Str) :
    ∀ acc (a : Str), a ∈ l.foldl addIfNew acc ↔ a ∈ acc ∨ a ∈ l := by
  induction l with
  | nil => simp
  | cons b t ih =>
    intro acc a
    rw [List.foldl_cons, ih]
    by_cases hb : b ∈ acc
    · rw [show addIfNew acc b = acc from by unfold addIfNew; rw [if_pos hb]]
      simp only [List.mem_cons]
      constructor
      · rintro (h | h)
        · exact Or.inl h
        · exact Or.inr (Or.inr h)
      · rintro (h | h | h)
        · exact Or.inl h
        · exact Or.inl (h ▸ hb)
        · exact Or.inr h
    · rw [show addIfNew acc b = acc ++ [b] from by unfold addIfNew; rw [if_neg hb]]
      simp only [List.mem_append, List.mem_singleton, List.mem_cons]
      tauto

theorem foldl_addIfNew_nodup (l : List Str) :
    ∀ acc, acc.Nodup → (l.foldl addIfNew acc).Nodup := by
  induction l with
  | nil => exact fun acc h => h
  | cons a t ih =>
    intro acc h
    rw [List.foldl_cons]
    apply ih
    by_cases ha : a ∈ acc
    · rw [show addIfNew acc a = acc from by unfold addIfNew; rw [if_pos ha]]
      exact h
    · rw [show addIfNew acc a = acc ++ [a] from by unfold addIfNew; rw [if_neg ha]]
      rw [List.nodup_append]
      exact ⟨h, List.nodup_singleton a,
        fun x hx hxa => ha ((List.mem_singleton.mp hxa) ▸ hx)⟩

theorem findSome?_eq_some_split {α β : Type} (f : α → Option β) (l : List α) (b : β)
    (h : l.findSome? f = some b) :
    ∃ l₁ a l₂, l = l₁ ++ a :: l₂ ∧ f a = some b ∧ ∀ x ∈ l₁, f x = none := by
  induction l with
  | nil => rw [List.findSome?_nil] at h; exact absurd h (by simp)
  | cons a t ih =>
    rw [List.findSome?_cons] at h
    cases hf : f a with
    | some c =>
      rw [hf] at h
      refine ⟨[], a, t, rfl, ?_, by simp⟩
      rw [hf]
      exact h
    | none =>
      rw [hf] at h
      obtain ⟨l₁, x, l₂, rfl, hx, hnone⟩ := ih h
      refine ⟨a :: l₁, x, l₂, rfl, hx, ?_⟩
      intro y hy
      rcases List.mem_cons.mp hy with rfl | hy
      · exact hf
      · exact hnone y hy

/- ------------------------------------------------------------------
  Claim theorems
------------------------------------------------------------------- -/

theorem expandLoop_unset_aux : ∀ fuel c : Nat,
    expandLoop [] fuel (chars "%FOO%") c = none := by
  intro fuel
  induction fuel with
  | zero => intro c; rfl
  | succ m ih =>
    intro c
    have hstep : expandLoop [] (m + 1) (chars "%FOO%") c =
        expandLoop [] m (chars "%FOO%") c := rfl
    rw [hstep]
    exact ih c

/-- C1: the claim says pal_env_get_variable_bool reports true exactly for
the case-insensitive values 1 and true and false for everything else.
In the code the results of pal_str_iequals (TRUE on a match) are compared
with 0, so the disjunction holds for every value whatsoever: the values 0
and false are also reported as true.  This theorem evaluates the
embedded function at those inputs; only an unset variable makes the call
fail. -/
theorem c1_env_bool_true_for_any_set_value :
    pal_env_get_variable_bool [(chars "CORECLR_SERVER_GC", chars "0")]
        (chars "CORECLR_SERVER_GC") = some true
    ∧ pal_env_get_variable_bool [(chars "X", chars "false")] (chars "X") = some true
    ∧ pal_env_get_variable_bool [(chars "X", chars "TrUe")] (chars "X") = some true
    ∧ pal_env_get_variable_bool [] (chars "X") = none := by decide

/-- C2: the claim says every stage failure before ExecuteAssembly yields
a fixed negative code.  The validate, discover, host and appdomain gates
do return -1, and the exit code is propagated verbatim on success; but
the SetStartupFlags and Start gates execute the statement returning the
C++ literal false from an int function, so those two pre-execution
failures return 0, which is the canonical successful managed exit
code. -/
theorem c2_run_exit_codes :
    snap_coreclr_run runWorldSuccess = 42
    ∧ snap_coreclr_run runWorldNoCoreClr = -1
    ∧ snap_coreclr_run runWorldSetStartupFlagsFails = 0
    ∧ snap_coreclr_run runWorldStartFails = 0 := by decide

/-- C3: the claim says the substitution loop of pal_env_expand_str
always terminates because iterations are capped or non-shrinking input
is detected.  The source has no cap and no such detection: when the
referenced variable is unset the loop body hits continue without
changing any state, so on the template with an unset FOO the loop runs
forever; the embedded loop exhausts every fuel bound. -/
theorem c3_expand_diverges_on_unset_variable :
    ∀ fuel : Nat, pal_env_expand_str [] (chars "%FOO%") fuel = none := by
  intro fuel
  unfold pal_env_expand_str
  rw [expandLoop_unset_aux fuel 0]
  rfl

/-- C5: combining a normalized path with dot returns the path unchanged;
combining a/b with dot-dot yields a; combining a with a dot-dot that
would escape above the first component fails. -/
theorem c5_path_combine_normalization :
    (∀ p : Str, normalizedPath p → pal_fs_path_combine p (chars ".") = some p)
    ∧ pal_fs_path_combine (chars "a/b") (chars "..") = some (chars "a")
    ∧ pal_fs_path_combine (chars "a") (chars "../a") = none :=
  ⟨fun p hp => pal_fs_path_combine_dot p hp, by decide, by decide⟩

/-- Witness for C5: the idempotence conjunct applied at the concrete
normalized path a/b. -/
theorem c5_witness :
    pal_fs_path_combine (chars "a/b") (chars ".") = some (chars "a/b") :=
  c5_path_combine_normalization.1 (chars "a/b") (by decide)

/-- C9: the startup flags start from the fixed baseline, an absent
toggle leaves the baseline unchanged, and the value TRUE sets the
server-GC bit.  But because pal_env_get_variable_bool reports true for
every set value (the inverted comparison of C1), a toggle set to 0 or
false also sets the bit instead of clearing it, contradicting the
claim that the bit is overridden to the toggle's boolean value. -/
theorem c9_startup_flags_env_overrides :
    create_clr_startup_flags [] = baselineStartupFlags
    ∧ (create_clr_startup_flags
        [(server_gc_environment_var, chars "TRUE")]).server_gc = true
    ∧ (create_clr_startup_flags
        [(server_gc_environment_var, chars "0")]).server_gc = true
    ∧ (create_clr_startup_flags
        [(concurrent_gc_environment_var, chars "false")]).concurrent_gc = true := by
  decide

/-- C10: pal_str_endswith accepts only strict proper suffixes (its
guard needs a positive length difference), never a string against
itself, and hence the Linux file-listing suffix filter never keeps an
entry whose whole name equals the extension filter. -/
theorem c10_endswith_proper_suffix :
    (∀ src s : Str, pal_str_endswith src s = true → s.length < src.length ∧ s <:+ src)
    ∧ (∀ s : Str, pal_str_endswith s s = false)
    ∧ (∀ (names : List Str) (e : Str),
        e ∉ pal_fs_list_files_names_linux names (some e)) := by
  have hself : ∀ s : Str, pal_str_endswith s s = false := by
    intro s
    unfold pal_str_endswith
    simp
  refine ⟨?_, hself, ?_⟩
  · intro src s h
    unfold pal_str_endswith at h
    simp only [Bool.and_eq_true, decide_eq_true_eq] at h
    obtain ⟨hlt, heq⟩ := h
    constructor
    · omega
    · rw [← heq]
      exact List.drop_suffix _ _
  · intro names e hmem
    unfold pal_fs_list_files_names_linux at hmem
    rw [List.mem_filter] at hmem
    have h2 : pal_str_endswith e e = true := hmem.2
    rw [hself e] at h2
    exact absurd h2 (by simp)

/-- Witness for C10: the proper-suffix conjunct applied to a concrete
match, and the self-comparison conjunct at a concrete string. -/
theorem c10_witness :
    ((chars ".dll").length < (chars "foo.dll").length ∧ chars ".dll" <:+ chars "foo.dll")
    ∧ pal_str_endswith (chars ".dll") (chars ".dll") = false :=
  ⟨c10_endswith_proper_suffix.1 (chars "foo.dll") (chars ".dll") (by decide),
   c10_endswith_proper_suffix.2.1 (chars ".dll")⟩

/-- C4, counterexample: in a directory holding foo.ni.dll and foo.dll
the built list contains the unoptimized foo.dll as well: the optimized
variant precedes it but does not exclude it, because deduplication
compares whole paths and the two paths differ. -/
theorem c4_counterexample_ni_does_not_shadow :
    get_trusted_platform_assemblies [chars "foo.ni.dll", chars "foo.dll"] (chars "d")
      = [chars "d/foo.ni.dll", chars "d/foo.dll"]
    ∧ chars "d/foo.dll" ∈
        get_trusted_platform_assemblies [chars "foo.ni.dll", chars "foo.dll"]
          (chars "d") := by
  decide

/-- C6: when every immediate subdirectory name of the root parses as a
version and the parsed versions are pairwise distinct, the locator's
output is sorted strictly ascending by version, and every returned
candidate has a version at or above the minimum and a library file that
exists at the path obtained by joining the candidate directory with the
library name. -/
theorem c6_locator_sorted_and_filtered (w : World) (root : Str) (minV : Semver)
    (names : List Str)
    (hroot : normalizedPath root)
    (hlk : lookupDir w.subdirectories root = some names)
    (hclean : ∀ n ∈ names, cleanEntryName n)
    (hdist : (names.filterMap parseSemver).Nodup) :
    (get_core_directories_from_path w root minV).Pairwise
        (fun a b => semverLt a.version b.version = true)
    ∧ ∀ d ∈ get_core_directories_from_path w root minV,
        semverLt d.version minV = false ∧
        pal_fs_file_exists w d.dll_path = true ∧
        pal_fs_path_combine d.root_path core_clr_dll = some d.dll_path := by
  have hlist := pal_fs_list_directories_clean w root names hroot hlk hclean
  have hmain : get_core_directories_from_path w root minV =
      List.insertionSort coreDirLe
        ((names.map (fun n => root ++ '/' :: n)).filterMap
          (scan_core_clr_path w minV)) := by
    unfold get_core_directories_from_path
    simp only [hlist]
  rw [hmain]
  have hperm := List.perm_insertionSort coreDirLe
    ((names.map (fun n => root ++ '/' :: n)).filterMap (scan_core_clr_path w minV))
  constructor
  · have hsorted := List.sorted_insertionSort coreDirLe
      ((names.map (fun n => root ++ '/' :: n)).filterMap (scan_core_clr_path w minV))
    have hsub : List.Sublist
        (((names.map (fun n => root ++ '/' :: n)).filterMap
          (scan_core_clr_path w minV)).map CoreClrDirectory.version)
        (names.filterMap parseSemver) := by
      rw [List.filterMap_map]
      apply filterMap_map_version_sublist
      intro n hn d hg
      obtain ⟨-, -, -, -, name, hname, hver⟩ :=
        scan_core_clr_path_spec (show scan_core_clr_path w minV (root ++ '/' :: n)
          = some d from hg)
      rw [pal_fs_get_directory_name_append root n (hclean n hn).2.1] at hname
      injection hname with hname
      rw [hname]
      exact hver
    have hnodupfl := hsub.nodup hdist
    have hnodup : ((List.insertionSort coreDirLe
        ((names.map (fun n => root ++ '/' :: n)).filterMap
          (scan_core_clr_path w minV))).map CoreClrDirectory.version).Nodup :=
      ((hperm.map CoreClrDirectory.version).symm).nodup hnodupfl
    have hpneq : (List.insertionSort coreDirLe
        ((names.map (fun n => root ++ '/' :: n)).filterMap
          (scan_core_clr_path w minV))).Pairwise
          (fun a b => a.version ≠ b.version) := by
      unfold List.Nodup at hnodup
      rw [List.pairwise_map] at hnodup
      exact hnodup
    exact (hsorted.and hpneq).imp
      (fun hab => semverLt_of_not_lt_of_ne hab.1 hab.2)
  · intro d hd
    have hd' := (hperm.mem_iff).mp hd
    obtain ⟨p, hp, hscan⟩ := List.mem_filterMap.mp hd'
    obtain ⟨ha, hb, hc, -, -⟩ := scan_core_clr_path_spec hscan
    exact ⟨ha, hb, hc⟩

/-- Witness for C6: a concrete world with version directories 1.0.0 and
2.0.0 and minimum 0.0.0 satisfies the hypotheses; the conclusion is the
strict sortedness and filtering of its concrete output. -/
theorem c6_witness :
    (get_core_directories_from_path scanWorldClean scanRootPath semverZero).Pairwise
        (fun a b => semverLt a.version b.version = true)
    ∧ ∀ d ∈ get_core_directories_from_path scanWorldClean scanRootPath semverZero,
        semverLt d.version semverZero = false ∧
        pal_fs_file_exists scanWorldClean d.dll_path = true ∧
        pal_fs_path_combine d.root_path core_clr_dll = some d.dll_path :=
  c6_locator_sorted_and_filtered scanWorldClean scanRootPath semverZero
    [chars "1.0.0", chars "2.0.0"] (by decide) (by decide) (by decide) (by decide)

/-- C7: a subdirectory whose name does not parse as a version is
skipped and the scan continues with the remaining entries: the locator
output over a listing holding the unparsable entry equals the output
over the same listing with that entry removed; in particular the
failure is confined to that entry and never aborts the scan. -/
theorem c7_unparsable_name_skipped (w w' : World) (root : Str) (minV : Semver)
    (pre post : List Str) (n : Str)
    (hroot : normalizedPath root)
    (hlkA : lookupDir w.subdirectories root = some (pre ++ n :: post))
    (hlkB : lookupDir w'.subdirectories root = some (pre ++ post))
    (hfiles : w'.files = w.files)
    (hcleanA : ∀ m ∈ pre ++ n :: post, cleanEntryName m)
    (hnop : parseSemver n = none) :
    get_core_directories_from_path w' root minV =
      get_core_directories_from_path w root minV := by
  have hcleanB : ∀ m ∈ pre ++ post, cleanEntryName m := by
    intro m hm
    apply hcleanA
    rcases List.mem_append.mp hm with hl | hr
    · exact List.mem_append.mpr (Or.inl hl)
    · exact List.mem_append.mpr (Or.inr (List.mem_cons_of_mem n hr))
  have hlA := pal_fs_list_directories_clean w root _ hroot hlkA hcleanA
  have hlB := pal_fs_list_directories_clean w' root _ hroot hlkB hcleanB
  unfold get_core_directories_from_path
  simp only [hlA, hlB]
  have hscan : scan_core_clr_path w' minV = scan_core_clr_path w minV := by
    funext p
    unfold scan_core_clr_path pal_fs_file_exists
    rw [hfiles]
  rw [hscan]
  congr 1
  rw [List.map_append, List.map_append, List.map_cons]
  rw [List.filterMap_append, List.filterMap_append, List.filterMap_cons]
  have hmid : scan_core_clr_path w minV (root ++ '/' :: n) = none := by
    unfold scan_core_clr_path
    rw [pal_fs_get_directory_name_append root n (hcleanA n (by simp)).2.1]
    simp [hnop]
  simp only [hmid]

/-- Witness for C7: removing the unparsable entry garbage from a
concrete listing leaves the locator output unchanged. -/
theorem c7_witness :
    get_core_directories_from_path scanWorldClean scanRootPath semverZero =
      get_core_directories_from_path scanWorldWithGarbage scanRootPath semverZero :=
  c7_unparsable_name_skipped scanWorldWithGarbage scanWorldClean scanRootPath semverZero
    [chars "1.0.0"] [chars "2.0.0"] (chars "garbage")
    (by decide) (by decide) (by decide) (by decide) (by decide) (by decide)

/-- C8: runtime discovery first tries the executable's own directory
with a default-constructed version and no minimum enforced: when that
load succeeds the result is that instance for every minimum version.
Only when it fails is the well-known root expanded and scanned; the
result then equals the first successful load over the candidate list,
which is sorted ascending by the comparator order, and any returned
instance comes from a candidate all of whose predecessors in the list
failed to load. -/
theorem c8_discovery_policy (w : World) (exe : Str) (minV : Semver) (fuel : Nat)
    (exeDir : Str)
    (hdir : pal_fs_get_directory_name_full_path exe = some exeDir) :
    (∀ inst, try_load_core_clr_directory w exeDir semverZero = some inst →
      ∀ minV2, try_load_core_clr w exe minV2 fuel = some inst)
    ∧ (try_load_core_clr_directory w exeDir semverZero = none →
      ∀ root, pal_env_expand_str w.env core_clr_program_files_directory_path fuel
          = some (some root) →
        try_load_core_clr w exe minV fuel =
          (get_core_directories_from_path w root minV).findSome?
            (fun d => try_load_core_clr_directory w d.root_path d.version)
        ∧ (get_core_directories_from_path w root minV).Pairwise coreDirLe
        ∧ ∀ inst, try_load_core_clr w exe minV fuel = some inst →
          ∃ l₁ d l₂, get_core_directories_from_path w root minV = l₁ ++ d :: l₂
            ∧ try_load_core_clr_directory w d.root_path d.version = some inst
            ∧ ∀ d' ∈ l₁, try_load_core_clr_directory w d'.root_path d'.version
                = none) := by
  constructor
  · intro inst hself minV2
    unfold try_load_core_clr
    simp only [hdir, hself]
  · intro hself root hexp
    have hrun : try_load_core_clr w exe minV fuel =
        (get_core_directories_from_path w root minV).findSome?
          (fun d => try_load_core_clr_directory w d.root_path d.version) := by
      unfold try_load_core_clr
      simp only [hdir, hself, hexp]
    refine ⟨hrun, ?_, ?_⟩
    · unfold get_core_directories_from_path
      cases hl : pal_fs_list_directories w root with
      | none => simp only [hl]; exact List.Pairwise.nil
      | some paths =>
        simp only [hl]
        exact List.sorted_insertionSort coreDirLe _
    · intro inst hres
      rw [hrun] at hres
      exact findSome?_eq_some_split _ _ inst hres

/-- Witness for C8: in a self-contained world the instance from the
executable's directory is returned regardless of the minimum version;
in a world with two installed candidates the result equals the first
successful load over the sorted candidate list. -/
theorem c8_witness :
    try_load_core_clr sampleWorldSelf sampleExe ⟨9, 9, 9, none⟩ 5 =
        some ⟨chars "/apps/foo", chars "/apps/foo/coreclr.dll", semverZero⟩
    ∧ try_load_core_clr sampleWorld sampleExe ⟨2, 0, 0, none⟩ 5 =
        (get_core_directories_from_path sampleWorld sampleRootPath
          ⟨2, 0, 0, none⟩).findSome?
          (fun d => try_load_core_clr_directory sampleWorld d.root_path d.version) :=
  ⟨(c8_discovery_policy sampleWorldSelf sampleExe ⟨9, 9, 9, none⟩ 5
      (chars "/apps/foo") (by decide)).1
      ⟨chars "/apps/foo", chars "/apps/foo/coreclr.dll", semverZero⟩ (by decide)
      ⟨9, 9, 9, none⟩,
   ((c8_discovery_policy sampleWorld sampleExe ⟨2, 0, 0, none⟩ 5
      (chars "/apps/foo") (by decide)).2 (by decide) sampleRootPath (by decide)).1⟩

theorem foldl_passes_nodup (dir : Str) (names : List Str) (exts : List Str) :
    ∀ acc : List Str, acc.Nodup →
      (exts.foldl (fun acc ext =>
        (pal_fs_list_files_glob dir names ext).foldl addIfNew acc) acc).Nodup := by
  induction exts with
  | nil => exact fun acc h => h
  | cons e t ih =>
    intro acc h
    rw [List.foldl_cons]
    exact ih _ (foldl_addIfNew_nodup _ _ h)

theorem foldl_passes_sublist (dir : Str) (names : List Str) (exts : List Str)
    (xs : List Str) :
    ∀ acc : List Str, List.Sublist xs acc →
      List.Sublist xs (exts.foldl (fun acc ext =>
        (pal_fs_list_files_glob dir names ext).foldl addIfNew acc) acc) := by
  induction exts with
  | nil => exact fun acc h => h
  | cons e t ih =>
    intro acc h
    rw [List.foldl_cons]
    apply ih
    obtain ⟨ex, hex, -⟩ := foldl_addIfNew_append (pal_fs_list_files_glob dir names e) acc
    rw [hex]
    exact h.trans (List.sublist_append_left acc ex)

theorem mem_list_files_glob {dir : Str} {names : List Str} {pat p : Str} :
    p ∈ pal_fs_list_files_glob dir names pat ↔
      ∃ m ∈ names, globMatch pat m = true ∧ notDotEntry m = true ∧
        pal_fs_path_combine dir m = some p := by
  unfold pal_fs_list_files_glob
  rw [foldr_combine_eq_filterMap, List.mem_filterMap]
  constructor
  · rintro ⟨m, hm, hcomb⟩
    rw [List.mem_filter] at hm
    obtain ⟨hm1, hdot⟩ := hm
    rw [List.mem_filter] at hm1
    exact ⟨m, hm1.1, hm1.2, hdot, hcomb⟩
  · rintro ⟨m, hmem, hglob, hdot, hcomb⟩
    refine ⟨m, ?_, hcomb⟩
    rw [List.mem_filter]
    exact ⟨List.mem_filter.mpr ⟨hmem, hglob⟩, hdot⟩

theorem suffix_append_cancel {x y s : Str} (h : (x ++ s) <:+ (y ++ s)) : x <:+ y := by
  have h1 := List.reverse_prefix.mpr h
  rw [List.reverse_append, List.reverse_append] at h1
  have h2 := (List.prefix_append_right_inj s.reverse).mp h1
  exact List.reverse_prefix.mp h2

/-- C4, amended: the built trusted-assembly list never contains
duplicate paths, and in a directory holding both the optimized variant
of a logical name (whose own stem does not itself end in the optimized
marker) and its unoptimized counterpart, the optimized path appears
strictly before the unoptimized one in the list, so it is preferred
under first-occurrence resolution; it is not excluded. -/
theorem c4_tpa_nodup_and_ni_precedes :
    (∀ (ns : List Str) (dir exe : Str),
      (build_trusted_platform_assemblies_list ns dir exe).Nodup)
    ∧ ∀ (names : List Str) (d n : Str),
        normalizedPath d →
        (∀ m ∈ names, cleanEntryName m) →
        (n ++ chars ".ni.dll") ∈ names →
        (n ++ chars ".dll") ∈ names →
        ¬ (chars ".ni" <:+ n) →
        List.Sublist
          [d ++ '/' :: (n ++ chars ".ni.dll"), d ++ '/' :: (n ++ chars ".dll")]
          (get_trusted_platform_assemblies names d) := by
  constructor
  · intro ns dir exe
    unfold build_trusted_platform_assemblies_list
    have htpa : (get_trusted_platform_assemblies ns dir).Nodup := by
      unfold get_trusted_platform_assemblies
      exact foldl_passes_nodup dir ns _ [] List.nodup_nil
    by_cases he : exe ∈ get_trusted_platform_assemblies ns dir
    · rw [if_pos he]
      exact htpa
    · rw [if_neg he]
      rw [List.nodup_append]
      exact ⟨htpa, List.nodup_singleton exe,
        fun x hx hxe => he ((List.mem_singleton.mp hxe) ▸ hx)⟩
  · intro names d n hd hnames h1 h2 hnni
    have hclean1 := hnames _ h1
    have hclean2 := hnames _ h2
    have hp1comb := combine_of_clean hd hclean1
    have hp2comb := combine_of_clean hd hclean2
    set F1 := pal_fs_list_files_glob d names (chars "*.ni.dll") with hF1def
    set F2 := pal_fs_list_files_glob d names (chars "*.dll") with hF2def
    set A1 := F1.foldl addIfNew ([] : List Str) with hA1def
    set A2 := F2.foldl addIfNew A1 with hA2def
    have hrw : get_trusted_platform_assemblies names d =
        [chars "*.ni.exe", chars "*.exe", chars "*.ni.winmd", chars "*.winmd"].foldl
          (fun acc ext => (pal_fs_list_files_glob d names ext).foldl addIfNew acc)
          A2 := by
      rw [hA2def, hA1def, hF1def, hF2def]
      rfl
    rw [hrw]
    apply foldl_passes_sublist
    have hp1F1 : (d ++ '/' :: (n ++ chars ".ni.dll")) ∈ F1 := by
      rw [hF1def]
      apply mem_list_files_glob.mpr
      refine ⟨n ++ chars ".ni.dll", h1, ?_, notDotEntry_of_clean hclean1, hp1comb⟩
      have hgm : globMatch (chars "*.ni.dll") (n ++ chars ".ni.dll") =
          (chars ".ni.dll").isSuffixOf (n ++ chars ".ni.dll") := rfl
      rw [hgm, List.isSuffixOf_iff_suffix]
      exact List.suffix_append _ _
    have hp2F2 : (d ++ '/' :: (n ++ chars ".dll")) ∈ F2 := by
      rw [hF2def]
      apply mem_list_files_glob.mpr
      refine ⟨n ++ chars ".dll", h2, ?_, notDotEntry_of_clean hclean2, hp2comb⟩
      have hgm : globMatch (chars "*.dll") (n ++ chars ".dll") =
          (chars ".dll").isSuffixOf (n ++ chars ".dll") := rfl
      rw [hgm, List.isSuffixOf_iff_suffix]
      exact List.suffix_append _ _
    have hp1A1 : (d ++ '/' :: (n ++ chars ".ni.dll")) ∈ A1 := by
      rw [hA1def]
      exact (mem_foldl_addIfNew_iff F1 [] _).mpr (Or.inr hp1F1)
    have hp2notA1 : (d ++ '/' :: (n ++ chars ".dll")) ∉ A1 := by
      rw [hA1def]
      intro hmem
      rcases (mem_foldl_addIfNew_iff F1 [] _).mp hmem with hin | hin
      · exact absurd hin (by simp)
      · rw [hF1def] at hin
        obtain ⟨m, hmnames, hmglob, -, hmcomb⟩ := mem_list_files_glob.mp hin
        rw [combine_of_clean hd (hnames m hmnames)] at hmcomb
        injection hmcomb with hmeq
        have hcons := List.append_cancel_left hmeq
        injection hcons with hhead hm2
        subst hm2
        have hgm : globMatch (chars "*.ni.dll") (n ++ chars ".dll") =
            (chars ".ni.dll").isSuffixOf (n ++ chars ".dll") := rfl
        rw [hgm, List.isSuffixOf_iff_suffix] at hmglob
        have hsplit : chars ".ni.dll" = chars ".ni" ++ chars ".dll" := rfl
        rw [hsplit] at hmglob
        exact hnni (suffix_append_cancel hmglob)
    have hp2A2 : (d ++ '/' :: (n ++ chars ".dll")) ∈ A2 := by
      rw [hA2def]
      exact (mem_foldl_addIfNew_iff F2 A1 _).mpr (Or.inr hp2F2)
    obtain ⟨ex2, hex2, -⟩ := foldl_addIfNew_append F2 A1
    have hp2ex2 : (d ++ '/' :: (n ++ chars ".dll")) ∈ ex2 := by
      rw [hA2def, hex2] at hp2A2
      rcases List.mem_append.mp hp2A2 with hin | hin
      · exact absurd hin hp2notA1
      · exact hin
    rw [hA2def, hex2]
    exact List.Sublist.append (List.singleton_sublist.mpr hp1A1)
      (List.singleton_sublist.mpr hp2ex2)

/-- Witness for C4: the amended claim evaluated at a concrete directory
listing holding foo.ni.dll and foo.dll. -/
theorem c4_witness :
    (build_trusted_platform_assemblies_list [chars "a.dll"] (chars "d")
      (chars "/e.exe")).Nodup
    ∧ List.Sublist
        [chars "d" ++ '/' :: (chars "foo" ++ chars ".ni.dll"),
          chars "d" ++ '/' :: (chars "foo" ++ chars ".dll")]
        (get_trusted_platform_assemblies [chars "foo.ni.dll", chars "foo.dll"]
          (chars "d")) :=
  ⟨c4_tpa_nodup_and_ni_precedes.1 [chars "a.dll"] (chars "d") (chars "/e.exe"),
   c4_tpa_nodup_and_ni_precedes.2 [chars "foo.ni.dll", chars "foo.dll"] (chars "d")
     (chars "foo") (by decide) (by decide) (by decide) (by decide) (by decide)⟩
